import Mathlib

/-!
Verification of the Unity documentation indexing pipeline.

Python strings are modelled as lists of characters (`PyStr`), Python
dictionaries as association lists, and the SQLite-backed structured store as
explicit lists of rows with an auto-increment counter.  Every definition is a
direct translation of the corresponding function in the source tree:
`ContentProcessor.prepare_for_vector_store`, the title / table parsing in
`ContentProcessor.extract_script_reference_data`, `UnityDocsScraper.get_page_id`
(MD5 of the URL), and the `StructuredStore` operations.
-/

/-- A Python string, modelled as its sequence of characters. -/
abbrev PyStr := List Char

/-- The whitespace characters recognised by Python `str.split()` (ASCII part). -/
def isPySpace (c : Char) : Bool :=
  c = ' ' || c = '\t' || c = '\n' || c = '\r' || c = '\x0b' || c = '\x0c'

/-- Helper for `pySplit`: `cur` is the (reversed) word being accumulated. -/
def pySplitAux : List Char → List Char → List PyStr
  | [], cur => if cur = [] then [] else [cur.reverse]
  | c :: rest, cur =>
    if isPySpace c then
      if cur = [] then pySplitAux rest []
      else cur.reverse :: pySplitAux rest []
    else pySplitAux rest (c :: cur)

/-- Python `content.split()`: split on runs of whitespace, dropping empties. -/
def pySplit (s : PyStr) : List PyStr := pySplitAux s []

/-- Python `" ".join(words)`. -/
def joinSpace : List PyStr → PyStr
  | [] => []
  | [w] => w
  | w :: v :: ws => w ++ ' ' :: joinSpace (v :: ws)

/-- Python `s.lower()` (ASCII). -/
def pyLower (s : PyStr) : PyStr := s.map Char.toLower

/-- Python `needle in haystack` for strings: substring containment. -/
def pyContains (haystack needle : PyStr) : Bool :=
  decide (List.IsInfix needle haystack)

/-- Values stored in a metadata dictionary. -/
inductive PyVal where
  | int (n : Nat)
  | str (s : PyStr)
deriving DecidableEq, Repr

/-- A Python dictionary, modelled as an insertion-ordered association list. -/
abbrev Dict := List (PyStr × PyVal)

/-- Python `d[k] = v`: replace the value in place if `k` is present, else
append the new binding at the end. -/
def dictSet (d : Dict) (k : PyStr) (v : PyVal) : Dict :=
  if d.any (fun kv => kv.1 = k) then
    d.map (fun kv => if kv.1 = k then (k, v) else kv)
  else
    d ++ [(k, v)]

/-- Python `d.get(k)`. -/
def dictGet (d : Dict) (k : PyStr) : Option PyVal :=
  (d.find? (fun kv => kv.1 = k)).map Prod.snd

/-- The string `"chunk_index"`. -/
def chunkIndexKey : PyStr := "chunk_index".toList

/-- One step of the word-accumulation loop in
`ContentProcessor.prepare_for_vector_store` (content_processor.py lines
300-315).  The state is (chunks so far, current buffer, current length). -/
def chunkStep (metadata : Dict) (chunk_size : Nat)
    (st : List (PyStr × Dict) × List PyStr × Nat) (word : PyStr) :
    List (PyStr × Dict) × List PyStr × Nat :=
  let (chunks, current_chunk, current_length) := st
  let word_length := word.length + 1
  if chunk_size < current_length + word_length ∧ current_chunk ≠ [] then
    let chunk_text := joinSpace current_chunk
    let chunk_metadata := dictSet metadata chunkIndexKey (.int chunks.length)
    (chunks ++ [(chunk_text, chunk_metadata)], [word], word_length)
  else
    (chunks, current_chunk ++ [word], current_length + word_length)

/-- `ContentProcessor.prepare_for_vector_store` (content_processor.py lines
274-324): single chunk when the content fits, otherwise greedy word
accumulation with a final unconditional flush. -/
def prepare_for_vector_store (content : PyStr) (metadata : Dict)
    (chunk_size : Nat := 1000) : List (PyStr × Dict) :=
  if content.length ≤ chunk_size then
    [(content, metadata)]
  else
    let words := pySplit content
    let (chunks, current_chunk, _) :=
      words.foldl (chunkStep metadata chunk_size) ([], [], 0)
    if current_chunk ≠ [] then
      chunks ++ [(joinSpace current_chunk,
                  dictSet metadata chunkIndexKey (.int chunks.length))]
    else
      chunks

/-- Length of the longest whitespace-delimited word of the content. -/
def maxWordLen (content : PyStr) : Nat :=
  (pySplit content).foldr (fun w m => max w.length m) 0

/-- ASCII `\w`: letters, digits, underscore. -/
def isWordChar (c : Char) : Bool := c.isAlphanum || c = '_'

/-- Greedy continuation of the regex `\w+(?:\.\w+)*` after its first
character: word characters are consumed; a dot is consumed only when the next
character is a word character (so every dot separates two identifiers). -/
def matchIdentAux : List Char → List Char
  | [] => []
  | c :: rest =>
    if isWordChar c then c :: matchIdentAux rest
    else if c = '.' then
      match rest with
      | d :: _ => if isWordChar d then c :: matchIdentAux rest else []
      | [] => []
    else []

/-- Python `full_name.rsplit(".", 1)` for a string containing a dot:
returns (prefix before the last dot, suffix after it). -/
def rsplitDot (s : PyStr) : PyStr × PyStr :=
  let r := s.reverse
  let last := r.takeWhile (fun c => c != '.')
  let restR := r.dropWhile (fun c => c != '.')
  ((restR.drop 1).reverse, last.reverse)

/-- The class-name/namespace parsing of
`ContentProcessor.extract_script_reference_data` (content_processor.py lines
47-56): match the title against `^(\w+(?:\.\w+)*)\s*(?:class)?`; if group 1
contains a dot, split at the last dot into (namespace, class name), else the
whole group is the class name.  Returns (class_name, namespace). -/
def parseClassTitle (title : PyStr) : Option PyStr × Option PyStr :=
  match title with
  | [] => (none, none)
  | c :: rest =>
    if isWordChar c then
      let full_name := c :: matchIdentAux rest
      if full_name.contains '.' then
        let (ns, cn) := rsplitDot full_name
        (some cn, some ns)
      else
        (some full_name, none)
    else (none, none)

/-- A parsed method row, as built by `ContentProcessor._extract_methods`. -/
structure MethodRec where
  name : PyStr
  return_type : Option PyStr
  is_static : Bool
  description : PyStr
  signature : PyStr
deriving DecidableEq, Repr

/-- A parsed property row, as built by `ContentProcessor._extract_properties`. -/
structure PropRec where
  name : PyStr
  property_type : Option PyStr
  is_static : Bool
  description : PyStr
deriving DecidableEq, Repr

/-- A parsed constructor row, as built by
`ContentProcessor._extract_constructors`. -/
structure CtorRec where
  signature : PyStr
  description : PyStr
deriving DecidableEq, Repr

/-- The row-processing loop of `ContentProcessor._extract_methods`
(content_processor.py lines 107-132).  `sectionText` is the text of the
methods-section heading; `rows` are the table rows as lists of cell texts.
The first row (header) is skipped; rows with fewer than two cells are
ignored; column 1 is split on whitespace, the last token is the method name
and the preceding tokens joined form the return type. -/
def extract_methods_rows (sectionText : PyStr) (rows : List (List PyStr)) :
    List MethodRec :=
  (rows.drop 1).foldl
    (fun methods row =>
      match row with
      | c0 :: c1 :: _ =>
        let method_name := c0
        let description := c1
        let signature := method_name
        let is_static := pyContains (pyLower sectionText) "static".toList
        let parts := pySplit method_name
        let actual_name := (parts.getLast?).getD method_name
        let return_type :=
          if 1 < parts.length then some (joinSpace parts.dropLast) else none
        methods ++ [⟨actual_name, return_type, is_static, description, signature⟩]
      | _ => methods)
    []

/-- The record built by `ContentProcessor.extract_script_reference_data`
(content_processor.py lines 32-44); the constant `type` field is omitted and
the Python `namespace` key is rendered `nspace` (Lean keyword). -/
structure ScriptRefData where
  url : PyStr
  title : PyStr
  class_name : Option PyStr
  nspace : Option PyStr
  inherits_from : Option PyStr
  description : Option PyStr
  is_static : Bool
  methods : List MethodRec
  properties : List PropRec
  constructors : List CtorRec
deriving DecidableEq, Repr

/-- Outcomes of the five BeautifulSoup-dependent sub-extractions inside
`extract_script_reference_data`; `Except.error` models the step raising. -/
structure SoupSteps where
  descStep : Except Unit (Option PyStr)
  inheritStep : Except Unit (Option PyStr)
  methodsStep : Except Unit (List MethodRec)
  propsStep : Except Unit (List PropRec)
  ctorsStep : Except Unit (List CtorRec)

/-- The fully defaulted extraction record of content_processor.py lines
32-44 (every field cleared, the page url and title kept). -/
def emptyScriptRef (url title : PyStr) : ScriptRefData :=
  { url := url, title := title, class_name := none, nspace := none,
    inherits_from := none, description := none, is_static := false,
    methods := [], properties := [], constructors := [] }

/-- The static check of content_processor.py lines 71-72:
`"static" in title.lower() or "static class" in html.lower()`. -/
def staticCheck (html title : PyStr) : Bool :=
  pyContains (pyLower title) "static".toList ||
    pyContains (pyLower html) "static class".toList

/-- `ContentProcessor.extract_script_reference_data` (content_processor.py
lines 30-86).  The whole body runs inside a single `try` block whose `except`
handler logs and falls through to `return result`: the first raising step
aborts every later step, and the result keeps exactly the fields assigned
before the exception.  The title parsing and the static check are pure and
translated directly; the soup-dependent steps are given by `steps`. -/
def extract_script_reference_data (steps : SoupSteps) (html url title : PyStr) :
    ScriptRefData :=
  let r0 := emptyScriptRef url title
  let (cn, ns) := parseClassTitle title
  let r1 := { r0 with class_name := cn, nspace := ns }
  match steps.descStep with
  | .error _ => r1
  | .ok d =>
    let r2 := { r1 with description := d }
    match steps.inheritStep with
    | .error _ => r2
    | .ok inh =>
      let r3 := { r2 with inherits_from := inh }
      let r4 := { r3 with is_static := staticCheck html title }
      match steps.methodsStep with
      | .error _ => r4
      | .ok ms =>
        let r5 := { r4 with methods := ms }
        match steps.propsStep with
        | .error _ => r5
        | .ok ps =>
          let r6 := { r5 with properties := ps }
          match steps.ctorsStep with
          | .error _ => r6
          | .ok cs => { r6 with constructors := cs }

/-! ### MD5, for `UnityDocsScraper.get_page_id` (unity_scraper.py lines 49-59) -/

/-- `2 ^ 32`. -/
def M32 : Nat := 4294967296

/-- 32-bit left rotation. -/
def rotl32 (x s : Nat) : Nat := ((x <<< s) ||| (x >>> (32 - s))) % M32

/-- 32-bit complement. -/
def not32 (x : Nat) : Nat := x ^^^ 0xffffffff

/-- The 64 MD5 sine-derived round constants (RFC 1321). -/
def md5K : List Nat :=
  [0xd76aa478, 0xe8c7b756, 0x242070db, 0xc1bdceee,
   0xf57c0faf, 0x4787c62a, 0xa8304613, 0xfd469501,
   0x698098d8, 0x8b44f7af, 0xffff5bb1, 0x895cd7be,
   0x6b901122, 0xfd987193, 0xa679438e, 0x49b40821,
   0xf61e2562, 0xc040b340, 0x265e5a51, 0xe9b6c7aa,
   0xd62f105d, 0x02441453, 0xd8a1e681, 0xe7d3fbc8,
   0x21e1cde6, 0xc33707d6, 0xf4d50d87, 0x455a14ed,
   0xa9e3e905, 0xfcefa3f8, 0x676f02d9, 0x8d2a4c8a,
   0xfffa3942, 0x8771f681, 0x6d9d6122, 0xfde5380c,
   0xa4beea44, 0x4bdecfa9, 0xf6bb4b60, 0xbebfbc70,
   0x289b7ec6, 0xeaa127fa, 0xd4ef3085, 0x04881d05,
   0xd9d4d039, 0xe6db99e5, 0x1fa27cf8, 0xc4ac5665,
   0xf4292244, 0x432aff97, 0xab9423a7, 0xfc93a039,
   0x655b59c3, 0x8f0ccc92, 0xffeff47d, 0x85845dd1,
   0x6fa87e4f, 0xfe2ce6e0, 0xa3014314, 0x4e0811a1,
   0xf7537e82, 0xbd3af235, 0x2ad7d2bb, 0xeb86d391]

/-- The 64 MD5 per-round shift amounts. -/
def md5S : List Nat :=
  [7, 12, 17, 22, 7, 12, 17, 22, 7, 12, 17, 22, 7, 12, 17, 22,
   5, 9, 14, 20, 5, 9, 14, 20, 5, 9, 14, 20, 5, 9, 14, 20,
   4, 11, 16, 23, 4, 11, 16, 23, 4, 11, 16, 23, 4, 11, 16, 23,
   6, 10, 15, 21, 6, 10, 15, 21, 6, 10, 15, 21, 6, 10, 15, 21]

/-- The MD5 round mixing function, by round index. -/
def md5F (i b c d : Nat) : Nat :=
  if i < 16 then (b &&& c) ||| (not32 b &&& d)
  else if i < 32 then (d &&& b) ||| (not32 d &&& c)
  else if i < 48 then b ^^^ c ^^^ d
  else c ^^^ (b ||| not32 d)

/-- The MD5 message-word index for round `i`. -/
def md5G (i : Nat) : Nat :=
  if i < 16 then i
  else if i < 32 then (5 * i + 1) % 16
  else if i < 48 then (3 * i + 5) % 16
  else (7 * i) % 16

/-- MD5 padding: append `0x80`, zero-pad to 56 mod 64 bytes, then the
little-endian 64-bit bit length. -/
def md5Pad (msg : List Nat) : List Nat :=
  let len := msg.length
  let zeros := (56 + 64 - (len + 1) % 64) % 64
  let lenBytes := (List.range 8).map (fun i => ((8 * len) >>> (8 * i)) &&& 0xff)
  msg ++ 0x80 :: List.replicate zeros 0 ++ lenBytes

/-- Split a byte list into 64-byte blocks (the fuel, at least the list
length, makes the recursion structural so that it reduces in the kernel). -/
def toBlocksAux : Nat → List Nat → List (List Nat)
  | 0, _ => []
  | _, [] => []
  | fuel + 1, a :: rest => ((a :: rest).take 64) :: toBlocksAux fuel ((a :: rest).drop 64)

/-- Split a byte list into 64-byte blocks. -/
def toBlocks (l : List Nat) : List (List Nat) := toBlocksAux l.length l

/-- The 64 MD5 rounds on one block of 16 message words. -/
def md5Rounds (ws : List Nat) (st : Nat × Nat × Nat × Nat) :
    Nat × Nat × Nat × Nat :=
  (List.range 64).foldl
    (fun st i =>
      let (a, b, c, d) := st
      let f := (md5F i b c d + a + md5K.getD i 0 + ws.getD (md5G i) 0) % M32
      (d, (b + rotl32 f (md5S.getD i 0)) % M32, b, c))
    st

/-- Process one 64-byte block: decode 16 little-endian words, run the rounds,
add the result into the running state. -/
def md5Block (st : Nat × Nat × Nat × Nat) (block : List Nat) :
    Nat × Nat × Nat × Nat :=
  let ws := (List.range 16).map
    (fun j => block.getD (4 * j) 0 + 256 * block.getD (4 * j + 1) 0 +
      65536 * block.getD (4 * j + 2) 0 + 16777216 * block.getD (4 * j + 3) 0)
  let (a, b, c, d) := md5Rounds ws st
  let (a0, b0, c0, d0) := st
  ((a0 + a) % M32, (b0 + b) % M32, (c0 + c) % M32, (d0 + d) % M32)

/-- MD5 of a byte sequence, as the four 32-bit state words. -/
def md5 (msg : List Nat) : Nat × Nat × Nat × Nat :=
  (toBlocks (md5Pad msg)).foldl md5Block
    (0x67452301, 0xefcdab89, 0x98badcfe, 0x10325476)

/-- Little-endian bytes of a 32-bit word. -/
def leBytes4 (x : Nat) : List Nat :=
  [x % 256, x / 256 % 256, x / 65536 % 256, x / 16777216 % 256]

/-- Lowercase hexadecimal digit. -/
def hexDigitChar (d : Nat) : Char :=
  if d < 10 then Char.ofNat (48 + d) else Char.ofNat (87 + d)

/-- Two lowercase hex characters of a byte. -/
def byteHex (b : Nat) : List Char := [hexDigitChar (b / 16 % 16), hexDigitChar (b % 16)]

/-- Hex digest of an MD5 state (byte order of `hashlib.md5(...).hexdigest()`). -/
def md5Digest (st : Nat × Nat × Nat × Nat) : PyStr :=
  let (a, b, c, d) := st
  (leBytes4 a ++ leBytes4 b ++ leBytes4 c ++ leBytes4 d).foldr
    (fun byte acc => byteHex byte ++ acc) []

/-- `hashlib.md5(msg).hexdigest()`. -/
def md5Hex (msg : List Nat) : PyStr := md5Digest (md5 msg)

/-- UTF-8 encoding of one character. -/
def utf8Encode (c : Char) : List Nat :=
  let n := c.toNat
  if n < 0x80 then [n]
  else if n < 0x800 then
    [0xc0 ||| (n >>> 6), 0x80 ||| (n &&& 0x3f)]
  else if n < 0x10000 then
    [0xe0 ||| (n >>> 12), 0x80 ||| ((n >>> 6) &&& 0x3f), 0x80 ||| (n &&& 0x3f)]
  else
    [0xf0 ||| (n >>> 18), 0x80 ||| ((n >>> 12) &&& 0x3f),
     0x80 ||| ((n >>> 6) &&& 0x3f), 0x80 ||| (n &&& 0x3f)]

/-- Python `url.encode()`: UTF-8 bytes. -/
def pyEncode (s : PyStr) : List Nat := (s.map utf8Encode).flatten

/-- `UnityDocsScraper.get_page_id` (unity_scraper.py lines 49-59):
`hashlib.md5(url.encode()).hexdigest()`. -/
def get_page_id (url : PyStr) : PyStr := md5Hex (pyEncode url)

/-! ### The structured store (structured_store.py) -/

/-- Python `int(is_static)`. -/
def b2i (b : Bool) : Nat := if b then 1 else 0

/-- A row of the `pages` table. -/
structure PageRow where
  id : PyStr
  url : PyStr
  title : PyStr
  doc_type : PyStr
  content : PyStr
deriving DecidableEq, Repr

/-- A row of the `classes` table (`namespace` rendered `nspace`). -/
structure ClassRow where
  id : Nat
  name : PyStr
  nspace : Option PyStr
  page_id : PyStr
  description : Option PyStr
  inherits_from : Option PyStr
  is_static : Nat
deriving DecidableEq, Repr

/-- A row of the `methods` table. -/
structure MethodRow where
  id : Nat
  class_id : Nat
  name : PyStr
  return_type : Option PyStr
  is_static : Nat
  description : Option PyStr
  signature : Option PyStr
deriving DecidableEq, Repr

/-- A row of the `properties` table. -/
structure PropertyRow where
  id : Nat
  class_id : Nat
  name : PyStr
  property_type : Option PyStr
  is_static : Nat
  description : Option PyStr
deriving DecidableEq, Repr

/-- The `StructuredStore` database state: the four tables in rowid order plus
the `AUTOINCREMENT` counters of the integer-keyed tables. -/
structure Store where
  pages : List PageRow
  classes : List ClassRow
  methods : List MethodRow
  properties : List PropertyRow
  nextClassId : Nat
  nextMethodId : Nat
  nextPropertyId : Nat
deriving DecidableEq, Repr

/-- The store created by `_create_tables` on a fresh database. -/
def emptyStore : Store := ⟨[], [], [], [], 1, 1, 1⟩

/-- `StructuredStore.add_page` (structured_store.py lines 119-142):
`INSERT OR REPLACE INTO pages` deletes any row conflicting on the `id`
primary key or the `UNIQUE url` column, then inserts the new row. -/
def add_page (s : Store) (page_id url title doc_type content : PyStr) : Store :=
  let newRow : PageRow := ⟨page_id, url, title, doc_type, content⟩
  { s with pages :=
      s.pages.filter (fun r => !(r.id == page_id || r.url == url)) ++ [newRow] }

/-- `StructuredStore.get_page` (lines 144-156): `fetchone` on
`SELECT * FROM pages WHERE id = ?`. -/
def get_page (s : Store) (page_id : PyStr) : Option PageRow :=
  s.pages.find? (fun r => r.id == page_id)

/-- `StructuredStore.get_page_by_url` (lines 158-170). -/
def get_page_by_url (s : Store) (url : PyStr) : Option PageRow :=
  s.pages.find? (fun r => r.url == url)

/-- `StructuredStore.add_class` (lines 172-201): `INSERT OR REPLACE INTO
classes` without an explicit `id` deletes any row conflicting on the
`UNIQUE name` column and inserts a fresh row under a new auto-increment id;
`cursor.lastrowid` (the new id) is returned. -/
def add_class (s : Store) (name : PyStr) (nspace : Option PyStr)
    (page_id : PyStr) (description : Option PyStr)
    (inherits_from : Option PyStr) (is_static : Bool) : Store × Nat :=
  let newRow : ClassRow :=
    ⟨s.nextClassId, name, nspace, page_id, description, inherits_from,
     b2i is_static⟩
  ({ s with
      classes := s.classes.filter (fun c => !(c.name == name)) ++ [newRow],
      nextClassId := s.nextClassId + 1 },
   s.nextClassId)

/-- The dictionary assembled by `StructuredStore.get_class`: the class row
with its joined method and property rows. -/
structure ClassView where
  row : ClassRow
  methods : List MethodRow
  properties : List PropertyRow
deriving DecidableEq, Repr

/-- `StructuredStore.get_class` (lines 203-230): `fetchone` on the class by
name, then `SELECT * FROM methods/properties WHERE class_id = ?`. -/
def get_class (s : Store) (name : PyStr) : Option ClassView :=
  match s.classes.find? (fun c => c.name == name) with
  | none => none
  | some row =>
    some ⟨row, s.methods.filter (fun m => m.class_id == row.id),
          s.properties.filter (fun p => p.class_id == row.id)⟩

/-- `StructuredStore.add_method` (lines 232-261): plain `INSERT`, append-only. -/
def add_method (s : Store) (class_id : Nat) (name : PyStr)
    (return_type : Option PyStr) (is_static : Bool)
    (description : Option PyStr) (signature : Option PyStr) : Store × Nat :=
  let newRow : MethodRow :=
    ⟨s.nextMethodId, class_id, name, return_type, b2i is_static, description,
     signature⟩
  ({ s with
      methods := s.methods ++ [newRow],
      nextMethodId := s.nextMethodId + 1 },
   s.nextMethodId)

/-- `StructuredStore.add_property` (lines 263-290): plain `INSERT`. -/
def add_property (s : Store) (class_id : Nat) (name : PyStr)
    (property_type : Option PyStr) (is_static : Bool)
    (description : Option PyStr) : Store × Nat :=
  let newRow : PropertyRow :=
    ⟨s.nextPropertyId, class_id, name, property_type, b2i is_static,
     description⟩
  ({ s with
      properties := s.properties ++ [newRow],
      nextPropertyId := s.nextPropertyId + 1 },
   s.nextPropertyId)

/-- SQLite `field LIKE '%query%'` (default `LIKE` is ASCII case-insensitive). -/
def likeContains (field q : PyStr) : Bool :=
  pyContains (pyLower field) (pyLower q)

/-- The `WHERE` clause of `search_classes`:
`name LIKE ? OR description LIKE ?` (a NULL description never matches). -/
def classMatches (q : PyStr) (c : ClassRow) : Bool :=
  likeContains c.name q ||
    (match c.description with
     | some d => likeContains d q
     | none => false)

/-- Bytewise (SQLite `BINARY` collation) string order for `ORDER BY`. -/
def strLeB : PyStr → PyStr → Bool
  | [], _ => true
  | _ :: _, [] => false
  | x :: xs, y :: ys =>
    if x.toNat < y.toNat then true
    else if y.toNat < x.toNat then false
    else strLeB xs ys

/-- `StructuredStore.search_classes` (lines 292-307). -/
def search_classes (s : Store) (q : PyStr) : List ClassRow :=
  (s.classes.filter (classMatches q)).mergeSort
    (fun a b => strLeB a.name b.name)

/-- The `WHERE` clause of `search_methods`. -/
def methodMatches (q : PyStr) (m : MethodRow) : Bool :=
  likeContains m.name q ||
    (match m.description with
     | some d => likeContains d q
     | none => false)

/-- A row of the `search_methods` join: the method row annotated with the
owning class name and namespace. -/
structure MethodJoinRow where
  m : MethodRow
  class_name : PyStr
  nspace : Option PyStr
deriving DecidableEq, Repr

/-- `StructuredStore.search_methods` (lines 309-326): inner join of methods
with their class, filtered on the method name/description, ordered by name. -/
def search_methods (s : Store) (q : PyStr) : List MethodJoinRow :=
  ((s.methods.flatMap
      (fun m => (s.classes.filter (fun c => c.id == m.class_id)).map
        (fun c => ⟨m, c.name, c.nspace⟩))).filter
    (fun j => methodMatches q j.m)).mergeSort
    (fun a b => strLeB a.m.name b.m.name)

/-- The record returned by `StructuredStore.get_stats` (lines 328-341). -/
structure Stats where
  pages_count : Nat
  classes_count : Nat
  methods_count : Nat
  properties_count : Nat
deriving DecidableEq, Repr

/-- `StructuredStore.get_stats`: `COUNT(*)` of each table. -/
def get_stats (s : Store) : Stats :=
  ⟨s.pages.length, s.classes.length, s.methods.length, s.properties.length⟩

/-! ### The per-page structured indexing flow (main.py lines 150-191) -/

/-- The string `"script_reference"`. -/
def scriptRefType : PyStr := "script_reference".toList

/-- The structured-persistence part of the per-page loop of
`download_and_index_docs` (main.py lines 150-191): `add_page`, then for a
script-reference page whose extraction found a class name, `add_class`
followed by `add_method` / `add_property` for every extracted member.
`structured` is the (deterministic) result of
`extract_script_reference_data` on the page. -/
def addMethodsFold (class_id : Nat) (ms : List MethodRec) (st : Store) :
    Store :=
  ms.foldl
    (fun st m => (add_method st class_id m.name m.return_type m.is_static
      (some m.description) (some m.signature)).1) st

/-- The `add_property` loop of main.py lines 184-191. -/
def addPropsFold (class_id : Nat) (ps : List PropRec) (st : Store) : Store :=
  ps.foldl
    (fun st p => (add_property st class_id p.name p.property_type
      p.is_static (some p.description)).1) st

def index_page_structured (s : Store) (page_id url title doc_type content :
    PyStr) (structured : ScriptRefData) : Store :=
  let s1 := add_page s page_id url title doc_type content
  if doc_type = scriptRefType then
    match structured.class_name with
    | some cname =>
      let (s2, class_id) := add_class s1 cname structured.nspace page_id
        structured.description structured.inherits_from structured.is_static
      addPropsFold class_id structured.properties
        (addMethodsFold class_id structured.methods s2)
    | none => s1
  else s1

/-! ### Chunk identities (main.py lines 204-214) -/

/-- Decimal digit character. -/
def decDigitChar (d : Nat) : Char := Char.ofNat (48 + d)

/-- Python `str(n)` for a natural number: decimal representation. -/
def natRepr (n : Nat) : PyStr :=
  if n = 0 then ['0'] else ((Nat.digits 10 n).map decDigitChar).reverse

/-- The chunk identity `f"{page_id}_chunk_{j}"` of main.py line 206. -/
def chunk_id (page_id : PyStr) (j : Nat) : PyStr :=
  page_id ++ "_chunk_".toList ++ natRepr j

/-- The chunk identities produced for a page whose chunking yielded
`chunks`, in chunk order (`enumerate` in main.py line 205). -/
def chunk_ids (page_id : PyStr) (chunks : List (PyStr × Dict)) : List PyStr :=
  (List.range chunks.length).map (chunk_id page_id)

/-! ### Specification-side helpers (used only in theorem statements/proofs) -/

/-- Sum of word lengths plus one separator per word. -/
def sumLen (ws : List PyStr) : Nat := ws.foldr (fun w n => w.length + 1 + n) 0

/-- The chunk list determined by a partition of the word list: the k-th part
becomes the chunk `(joinSpace part, metadata + chunk_index = i + k)`. -/
def mkChunksFrom (md : Dict) (i : Nat) : List (List PyStr) → List (PyStr × Dict)
  | [] => []
  | p :: ps =>
    (joinSpace p, dictSet md chunkIndexKey (.int i)) :: mkChunksFrom md (i + 1) ps

/-- Dotted join of identifiers, for the title grammar
`Identifier(.Identifier)*`. -/
def dotJoin : List PyStr → PyStr
  | [] => []
  | [w] => w
  | w :: v :: ws => w ++ '.' :: dotJoin (v :: ws)

/-- Lowercase hexadecimal digit character. -/
def isHexChar (c : Char) : Bool :=
  ('0' ≤ c && c ≤ '9') || ('a' ≤ c && c ≤ 'f')

/-! ## Theorems -/

theorem mem_foldr_byteHex {l : List Nat} {ch : Char}
    (h : ch ∈ l.foldr (fun byte acc => byteHex byte ++ acc) []) :
    ∃ b, ch ∈ byteHex b := by
  induction l with
  | nil => simp at h
  | cons x xs ih =>
    simp only [List.foldr_cons, List.mem_append] at h
    rcases h with h | h
    · exact ⟨x, h⟩
    · exact ih h

theorem isHexChar_byteHex (b : Nat) (ch : Char) (h : ch ∈ byteHex b) :
    isHexChar ch = true := by
  have h16 : ∀ d, d < 16 → isHexChar (hexDigitChar d) = true := by decide
  simp only [byteHex, List.mem_cons, List.not_mem_nil, or_false] at h
  rcases h with h | h <;> subst h <;>
    exact h16 _ (Nat.mod_lt _ (by norm_num))

theorem md5Digest_length (st : Nat × Nat × Nat × Nat) :
    (md5Digest st).length = 32 := by
  obtain ⟨a, b, c, d⟩ := st
  rfl

theorem md5Digest_hex (st : Nat × Nat × Nat × Nat) :
    ∀ ch ∈ md5Digest st, isHexChar ch = true := by
  obtain ⟨a, b, c, d⟩ := st
  intro ch hch
  obtain ⟨b', hb'⟩ := mem_foldr_byteHex
    (l := leBytes4 a ++ leBytes4 b ++ leBytes4 c ++ leBytes4 d) hch
  exact isHexChar_byteHex b' ch hb'

/-- C5: page identity is a deterministic pure function of the URL
(`get_page_id url = get_page_id url` always), the Manual/X and
ScriptReference/X URLs receive distinct identities, and every identity is a
fixed-width 32-character (128-bit) hex-encoded string — stable across runs
because the function is pure. -/
theorem c5_page_identity :
    (∀ url : PyStr, get_page_id url = get_page_id url) ∧
    get_page_id "https://docs.unity3d.com/Manual/X.html".toList ≠
      get_page_id "https://docs.unity3d.com/ScriptReference/X.html".toList ∧
    (∀ url : PyStr, (get_page_id url).length = 32 ∧
      ∀ ch ∈ get_page_id url, isHexChar ch = true) :=
  ⟨fun _ => rfl, by decide,
   fun _ => ⟨md5Digest_length _, md5Digest_hex _⟩⟩

theorem c5_witness :
    'd' ∈ get_page_id [] ∧ isHexChar 'd' = true :=
  ⟨by decide, (c5_page_identity.2.2 []).2 'd' (by decide)⟩

/-- C2 counterexample: for content `"hi"` (length 2 ≤ 1000) and empty input
metadata, the single returned pair carries the input metadata object
unchanged — no `chunk_index` key is added, so the metadata is not the claimed
copy extended with `chunk_index = 0`. -/
theorem c2_counterexample :
    (prepare_for_vector_store "hi".toList [] 1000).map Prod.snd ≠
      [dictSet [] chunkIndexKey (.int 0)] := by
  decide

/-- C2 (amended): content of length ≤ `max_size` produces exactly one
(chunk, metadata) pair whose chunk text equals the input content; its
metadata is the input metadata itself, unchanged — no copy is made and no
`chunk_index` field is added in this branch. -/
theorem c2_single_chunk (content : PyStr) (md : Dict) (cs : Nat)
    (h : content.length ≤ cs) :
    prepare_for_vector_store content md cs = [(content, md)] := by
  simp [prepare_for_vector_store, h]

theorem c2_witness :
    ("hi".toList : PyStr).length ≤ 1000 ∧
    prepare_for_vector_store "hi".toList [] 1000 = [("hi".toList, [])] :=
  ⟨by decide, c2_single_chunk _ _ _ (by decide)⟩

/-- C9: structured-store queries that miss never raise: a `get_page`,
`get_page_by_url` or `get_class` on an absent key returns `none`, and
`search_classes` / `search_methods` return `[]` when no row matches. -/
theorem c9_missing_queries :
    (∀ (s : Store) (pid : PyStr), (∀ r ∈ s.pages, r.id ≠ pid) →
      get_page s pid = none) ∧
    (∀ (s : Store) (u : PyStr), (∀ r ∈ s.pages, r.url ≠ u) →
      get_page_by_url s u = none) ∧
    (∀ (s : Store) (n : PyStr), (∀ c ∈ s.classes, c.name ≠ n) →
      get_class s n = none) ∧
    (∀ (s : Store) (q : PyStr), (∀ c ∈ s.classes, classMatches q c = false) →
      search_classes s q = []) ∧
    (∀ (s : Store) (q : PyStr), (∀ m ∈ s.methods, methodMatches q m = false) →
      search_methods s q = []) := by
  refine ⟨?_, ?_, ?_, ?_, ?_⟩
  · intro s pid h
    exact List.find?_eq_none.mpr (fun r hr => by simpa using h r hr)
  · intro s u h
    exact List.find?_eq_none.mpr (fun r hr => by simpa using h r hr)
  · intro s n h
    have hf : s.classes.find? (fun c => c.name == n) = none :=
      List.find?_eq_none.mpr (fun c hc => by simpa using h c hc)
    simp [get_class, hf]
  · intro s q h
    have hf : s.classes.filter (classMatches q) = [] :=
      List.filter_eq_nil_iff.mpr (fun c hc => by simp [h c hc])
    simp [search_classes, hf]
  · intro s q h
    have hf : (s.methods.flatMap
        (fun m => (s.classes.filter (fun c => c.id == m.class_id)).map
          (fun c => (⟨m, c.name, c.nspace⟩ : MethodJoinRow)))).filter
        (fun j => methodMatches q j.m) = [] := by
      refine List.filter_eq_nil_iff.mpr ?_
      intro j hj
      obtain ⟨m, hm, hjm⟩ := List.mem_flatMap.mp hj
      obtain ⟨c, _, rfl⟩ := List.mem_map.mp hjm
      simp [h m hm]
    simp [search_methods, hf]

theorem c9_witness :
    get_page emptyStore ['x'] = none ∧
    get_page_by_url emptyStore ['x'] = none ∧
    get_class emptyStore ['x'] = none ∧
    search_classes emptyStore ['x'] = [] ∧
    search_methods emptyStore ['x'] = [] :=
  ⟨c9_missing_queries.1 _ _ (fun r hr => nomatch hr),
   c9_missing_queries.2.1 _ _ (fun r hr => nomatch hr),
   c9_missing_queries.2.2.1 _ _ (fun c hc => nomatch hc),
   c9_missing_queries.2.2.2.1 _ _ (fun c hc => nomatch hc),
   c9_missing_queries.2.2.2.2 _ _ (fun m hm => nomatch hm)⟩

/-- C8: method-table rows.  The row `["SetActive", "Activates/Deactivates
the GameObject"]` under a "Public Methods" heading yields a method named
`SetActive` with that description and no return type; `["void SetActive",
"..."]` yields name `SetActive`, return type `void`; in general column 1 is
split on whitespace, the last token is the name and the preceding tokens
joined are the return type (`none` when there is a single token). -/
theorem c8_method_table :
    extract_methods_rows "Public Methods".toList
        [["Method".toList, "Description".toList],
         ["SetActive".toList, "Activates/Deactivates the GameObject".toList]] =
      [{ name := "SetActive".toList, return_type := none, is_static := false,
         description := "Activates/Deactivates the GameObject".toList,
         signature := "SetActive".toList }] ∧
    extract_methods_rows "Public Methods".toList
        [["Method".toList, "Description".toList],
         ["void SetActive".toList, "...".toList]] =
      [{ name := "SetActive".toList, return_type := some "void".toList,
         is_static := false, description := "...".toList,
         signature := "void SetActive".toList }] ∧
    (∀ (sectionText : PyStr) (hdr : List PyStr) (c0 c1 : PyStr)
       (ext : List PyStr) (nm : PyStr),
      (pySplit c0).getLast? = some nm →
      extract_methods_rows sectionText [hdr, c0 :: c1 :: ext] =
        [{ name := nm,
           return_type := if 1 < (pySplit c0).length then
               some (joinSpace (pySplit c0).dropLast)
             else none,
           is_static := pyContains (pyLower sectionText) "static".toList,
           description := c1, signature := c0 }]) := by
  refine ⟨by decide, by decide, ?_⟩
  intro sectionText hdr c0 c1 ext nm h
  simp [extract_methods_rows, h]

theorem c8_witness :
    extract_methods_rows "Static Methods".toList
        [[], ["int GetID".toList, "desc".toList]] =
      [{ name := "GetID".toList, return_type := some "int".toList,
         is_static := true, description := "desc".toList,
         signature := "int GetID".toList }] := by
  have h := c8_method_table.2.2 "Static Methods".toList [] "int GetID".toList
    "desc".toList [] "GetID".toList (by decide)
  rw [h]
  decide

/-- C3 counterexample: with the description sub-extraction raising and the
methods sub-extraction returning one method, the result has an empty methods
list — a failure in one sub-extraction empties the later fields too, so the
isolation is not per-field. -/
theorem c3_counterexample :
    (extract_script_reference_data
        { descStep := .error (), inheritStep := .ok none,
          methodsStep := .ok [(⟨['M'], none, false, [], ['M']⟩ : MethodRec)],
          propsStep := .ok [], ctorsStep := .ok [] }
        [] [] []).methods ≠
      [(⟨['M'], none, false, [], ['M']⟩ : MethodRec)] := by
  decide

/-- C3 (amended): `extract_script_reference_data` is total (never raises
outward) and always returns the given url and title and the class name /
namespace parsed from the title; but the single `try` block means an
exception in a sub-extraction leaves that field and every later field at
its default, while the earlier fields keep their extracted values —
failure isolation is per page, not per field. -/
theorem c3_extraction_flow (steps : SoupSteps) (html url title : PyStr)
    (r : ScriptRefData)
    (hr : r = extract_script_reference_data steps html url title) :
    r.url = url ∧ r.title = title ∧
    (r.class_name, r.nspace) = parseClassTitle title ∧
    (steps.descStep = .error () →
      r = { emptyScriptRef url title with
              class_name := (parseClassTitle title).1,
              nspace := (parseClassTitle title).2 }) ∧
    (∀ d inh, steps.descStep = .ok d → steps.inheritStep = .ok inh →
      steps.methodsStep = .error () →
      r = { emptyScriptRef url title with
              class_name := (parseClassTitle title).1,
              nspace := (parseClassTitle title).2,
              description := d, inherits_from := inh,
              is_static := staticCheck html title }) ∧
    (∀ d inh ms ps cs,
      steps = { descStep := .ok d, inheritStep := .ok inh,
                methodsStep := .ok ms, propsStep := .ok ps,
                ctorsStep := .ok cs } →
      r = { emptyScriptRef url title with
              class_name := (parseClassTitle title).1,
              nspace := (parseClassTitle title).2,
              description := d, inherits_from := inh,
              is_static := staticCheck html title,
              methods := ms, properties := ps, constructors := cs }) := by
  subst hr
  obtain ⟨ds, ins, ms, ps, cs⟩ := steps
  cases ds <;> cases ins <;> cases ms <;> cases ps <;> cases cs <;>
    simp_all [extract_script_reference_data, emptyScriptRef]

theorem c3_witness :
    (extract_script_reference_data
        { descStep := .ok none, inheritStep := .ok none, methodsStep := .ok [],
          propsStep := .ok [], ctorsStep := .ok [] }
        ['h'] ['u'] ['t']).url = ['u'] :=
  (c3_extraction_flow
    { descStep := .ok none, inheritStep := .ok none, methodsStep := .ok [],
      propsStep := .ok [], ctorsStep := .ok [] }
    ['h'] ['u'] ['t'] _ rfl).1

theorem addMethodsFold_pages (cid : Nat) (ms : List MethodRec) (st : Store) :
    (addMethodsFold cid ms st).pages = st.pages := by
  induction ms generalizing st with
  | nil => rfl
  | cons m rest ih => exact ih _

theorem addMethodsFold_classes (cid : Nat) (ms : List MethodRec) (st : Store) :
    (addMethodsFold cid ms st).classes = st.classes := by
  induction ms generalizing st with
  | nil => rfl
  | cons m rest ih => exact ih _

theorem addPropsFold_pages (cid : Nat) (ps : List PropRec) (st : Store) :
    (addPropsFold cid ps st).pages = st.pages := by
  induction ps generalizing st with
  | nil => rfl
  | cons p rest ih => exact ih _

theorem addPropsFold_classes (cid : Nat) (ps : List PropRec) (st : Store) :
    (addPropsFold cid ps st).classes = st.classes := by
  induction ps generalizing st with
  | nil => rfl
  | cons p rest ih => exact ih _

theorem index_page_pages (s : Store) (pid url title dt content : PyStr)
    (sd : ScriptRefData) :
    (index_page_structured s pid url title dt content sd).pages =
      s.pages.filter (fun r => !(r.id == pid || r.url == url)) ++
        [⟨pid, url, title, dt, content⟩] := by
  unfold index_page_structured
  by_cases hdt : dt = scriptRefType <;> cases hcn : sd.class_name <;>
    simp [hdt, hcn, addPropsFold_pages, addMethodsFold_pages, add_class,
      add_page]

theorem index_page_classes (s : Store) (pid url title dt content : PyStr)
    (sd : ScriptRefData) (cname : PyStr) (hdt : dt = scriptRefType)
    (hcn : sd.class_name = some cname) :
    (index_page_structured s pid url title dt content sd).classes =
      s.classes.filter (fun c => !(c.name == cname)) ++
        [⟨s.nextClassId, cname, sd.nspace, pid, sd.description,
          sd.inherits_from, b2i sd.is_static⟩] := by
  unfold index_page_structured
  simp [hdt, hcn, addPropsFold_classes, addMethodsFold_classes, add_class,
    add_page]

theorem upsert_filter_name (l : List ClassRow) (cname : PyStr) (row : ClassRow)
    (hrow : row.name = cname) :
    ((l.filter (fun c => !(c.name == cname)) ++ [row]).filter
        (fun c => c.name == cname) = [row]) ∧
    ((l.filter (fun c => !(c.name == cname)) ++ [row]).filter
        (fun c => !(c.name == cname)) = l.filter (fun c => !(c.name == cname))) := by
  constructor
  · rw [List.filter_append]
    have h1 : (l.filter (fun c => !(c.name == cname))).filter
        (fun c => c.name == cname) = [] := by
      refine List.filter_eq_nil_iff.mpr ?_
      intro c hc
      have := (List.mem_filter.mp hc).2
      simp_all
    rw [h1]
    simp [hrow]
  · rw [List.filter_append]
    have h1 : (l.filter (fun c => !(c.name == cname))).filter
        (fun c => !(c.name == cname)) = l.filter (fun c => !(c.name == cname)) := by
      refine List.filter_eq_self.mpr ?_
      intro c hc
      exact (List.mem_filter.mp hc).2
    rw [h1]
    simp [hrow]

/-- C4: re-indexing the same page data is idempotent for pages and classes:
after one and after two runs the pages table holds exactly one row for the
URL, identical both times (identity `get_page_id url`), and for a
script-reference page with a parsed class name the classes table holds
exactly one row for that name each time, the second run replacing rather
than duplicating it (class count unchanged). -/
theorem c4_reindex_idempotent (s : Store) (url title doc_type content : PyStr)
    (structured : ScriptRefData) (s1 s2 : Store)
    (h1 : s1 = index_page_structured s (get_page_id url) url title doc_type
      content structured)
    (h2 : s2 = index_page_structured s1 (get_page_id url) url title doc_type
      content structured) :
    s1.pages.filter (fun r => r.url == url) =
      [⟨get_page_id url, url, title, doc_type, content⟩] ∧
    s2.pages.filter (fun r => r.url == url) =
      [⟨get_page_id url, url, title, doc_type, content⟩] ∧
    (∀ cname, doc_type = scriptRefType → structured.class_name = some cname →
      (s1.classes.filter (fun c => c.name == cname)).length = 1 ∧
      (s2.classes.filter (fun c => c.name == cname)).length = 1 ∧
      s2.classes.length = s1.classes.length) := by
  have hpagesFilter : ∀ (t : Store),
      (index_page_structured t (get_page_id url) url title doc_type content
          structured).pages.filter (fun r => r.url == url) =
        [⟨get_page_id url, url, title, doc_type, content⟩] := by
    intro t
    rw [index_page_pages, List.filter_append]
    have hnil : (t.pages.filter
        (fun r => !(r.id == get_page_id url || r.url == url))).filter
        (fun r => r.url == url) = [] := by
      refine List.filter_eq_nil_iff.mpr ?_
      intro r hr
      have := (List.mem_filter.mp hr).2
      simp_all
    rw [hnil]
    simp
  refine ⟨h1 ▸ hpagesFilter s, h2 ▸ h1 ▸ hpagesFilter _, ?_⟩
  intro cname hdt hcn
  have hc1 : s1.classes = s.classes.filter (fun c => !(c.name == cname)) ++
      [⟨s.nextClassId, cname, structured.nspace, get_page_id url,
        structured.description, structured.inherits_from,
        b2i structured.is_static⟩] :=
    h1 ▸ index_page_classes s _ url title doc_type content structured cname hdt hcn
  have hc2 : s2.classes = s1.classes.filter (fun c => !(c.name == cname)) ++
      [⟨s1.nextClassId, cname, structured.nspace, get_page_id url,
        structured.description, structured.inherits_from,
        b2i structured.is_static⟩] :=
    h2 ▸ index_page_classes s1 _ url title doc_type content structured cname hdt hcn
  have hu1 := upsert_filter_name s.classes cname
    ⟨s.nextClassId, cname, structured.nspace, get_page_id url,
      structured.description, structured.inherits_from,
      b2i structured.is_static⟩ rfl
  have hu2 := upsert_filter_name s1.classes cname
    ⟨s1.nextClassId, cname, structured.nspace, get_page_id url,
      structured.description, structured.inherits_from,
      b2i structured.is_static⟩ rfl
  refine ⟨?_, ?_, ?_⟩
  · rw [hc1, hu1.1]
    rfl
  · rw [hc2, hu2.1]
    rfl
  · have hfe : s1.classes.filter (fun c => !(c.name == cname)) =
        s.classes.filter (fun c => !(c.name == cname)) := by
      rw [hc1]
      exact hu1.2
    rw [hc2, List.length_append, hfe, hc1, List.length_append]
    simp

theorem c4_witness :
    (index_page_structured
        (index_page_structured emptyStore (get_page_id ['u']) ['u'] ['t']
          scriptRefType ['c']
          { emptyScriptRef ['u'] ['t'] with class_name := some ['A'] })
        (get_page_id ['u']) ['u'] ['t'] scriptRefType ['c']
        { emptyScriptRef ['u'] ['t'] with
            class_name := some ['A'] }).classes.length =
      (index_page_structured emptyStore (get_page_id ['u']) ['u'] ['t']
        scriptRefType ['c']
        { emptyScriptRef ['u'] ['t'] with
            class_name := some ['A'] }).classes.length :=
  ((c4_reindex_idempotent emptyStore ['u'] ['t'] scriptRefType ['c']
      { emptyScriptRef ['u'] ['t'] with class_name := some ['A'] } _ _ rfl
      rfl).2.2 ['A'] rfl rfl).2.2

/-- C10 (implicit): re-upserting an existing class name installs a fresh
auto-increment class id; the method and property rows previously added under
the old id stay in their tables but are invisible to `get_class`, which after
adding one member under the new id returns exactly that member, while
`get_stats` still counts the orphaned rows. -/
theorem c10_reupsert_orphans (s : Store)
    (hwf : ∀ c ∈ s.classes, c.id < s.nextClassId)
    (hm : ∀ m ∈ s.methods, ∃ c ∈ s.classes, m.class_id = c.id)
    (hp : ∀ p ∈ s.properties, ∃ c ∈ s.classes, p.class_id = c.id)
    (c0 : ClassRow) (hc0 : c0 ∈ s.classes)
    (ns : Option PyStr) (pid : PyStr) (desc inh : Option PyStr) (stf : Bool)
    (mname : PyStr) (rt : Option PyStr) (mst : Bool) (mdesc msig : Option PyStr)
    (s1 : Store) (cid : Nat)
    (h1 : (s1, cid) = add_class s c0.name ns pid desc inh stf)
    (s2 : Store) (mid : Nat)
    (h2 : (s2, mid) = add_method s1 cid mname rt mst mdesc msig) :
    cid = s.nextClassId ∧
    (∀ c ∈ s.classes, c.id ≠ cid) ∧
    c0.id ≠ cid ∧
    s2.methods = s.methods ++
      [⟨s.nextMethodId, cid, mname, rt, b2i mst, mdesc, msig⟩] ∧
    s2.properties = s.properties ∧
    get_class s2 c0.name =
      some ⟨⟨cid, c0.name, ns, pid, desc, inh, b2i stf⟩,
            [⟨s.nextMethodId, cid, mname, rt, b2i mst, mdesc, msig⟩], []⟩ ∧
    (get_stats s2).methods_count = s.methods.length + 1 ∧
    (get_stats s2).properties_count = s.properties.length := by
  have hcid : cid = s.nextClassId := by
    have := congrArg Prod.snd h1
    simpa using this
  have hs1 : s1 = { s with
      classes := s.classes.filter (fun c => !(c.name == c0.name)) ++
        [⟨s.nextClassId, c0.name, ns, pid, desc, inh, b2i stf⟩],
      nextClassId := s.nextClassId + 1 } := by
    have := congrArg Prod.fst h1
    simpa [add_class] using this
  have hfresh : ∀ c ∈ s.classes, c.id ≠ cid := by
    intro c hc
    have := hwf c hc
    omega
  have hs2 : s2 = { s1 with
      methods := s1.methods ++
        [⟨s1.nextMethodId, cid, mname, rt, b2i mst, mdesc, msig⟩],
      nextMethodId := s1.nextMethodId + 1 } := by
    have := congrArg Prod.fst h2
    simpa [add_method] using this
  have hmeth : s2.methods = s.methods ++
      [⟨s.nextMethodId, cid, mname, rt, b2i mst, mdesc, msig⟩] := by
    rw [hs2, hs1]
  have hprops : s2.properties = s.properties := by
    rw [hs2, hs1]
  refine ⟨hcid, hfresh, fun h => hfresh c0 hc0 h, hmeth, hprops, ?_, ?_, ?_⟩
  · have hclasses : s2.classes =
        s.classes.filter (fun c => !(c.name == c0.name)) ++
          [⟨s.nextClassId, c0.name, ns, pid, desc, inh, b2i stf⟩] := by
      rw [hs2, hs1]
    have hfind : s2.classes.find? (fun c => c.name == c0.name) =
        some ⟨s.nextClassId, c0.name, ns, pid, desc, inh, b2i stf⟩ := by
      rw [hclasses, List.find?_append]
      have hnone : (s.classes.filter
          (fun c => !(c.name == c0.name))).find?
          (fun c => c.name == c0.name) = none := by
        refine List.find?_eq_none.mpr ?_
        intro c hc
        have := (List.mem_filter.mp hc).2
        simp_all
      rw [hnone]
      simp
    have hmfil : s2.methods.filter (fun m => m.class_id == s.nextClassId) =
        [⟨s.nextMethodId, cid, mname, rt, b2i mst, mdesc, msig⟩] := by
      rw [hmeth, List.filter_append]
      have hold : s.methods.filter (fun m => m.class_id == s.nextClassId) = [] := by
        refine List.filter_eq_nil_iff.mpr ?_
        intro m hmm
        obtain ⟨c, hc, hceq⟩ := hm m hmm
        have := hwf c hc
        simp only [beq_iff_eq]
        omega
      rw [hold]
      simp [hcid]
    have hpfil : s2.properties.filter (fun p => p.class_id == s.nextClassId) = [] := by
      rw [hprops]
      refine List.filter_eq_nil_iff.mpr ?_
      intro p hpp
      obtain ⟨c, hc, hceq⟩ := hp p hpp
      have := hwf c hc
      simp only [beq_iff_eq]
      omega
    rw [get_class, hfind]
    simp only [hcid]
    rw [hmfil, hpfil, hcid]
  · simp [get_stats, hmeth]
  · simp [get_stats, hprops]

theorem c10_witness :
    (get_stats
        (add_method
          (add_class
            (⟨[], [⟨1, ['A'], none, ['p'], none, none, 0⟩],
              [⟨1, 1, ['O'], none, 0, none, none⟩], [], 2, 2, 1⟩ : Store)
            ['A'] none ['q'] none none false).1
          (add_class
            (⟨[], [⟨1, ['A'], none, ['p'], none, none, 0⟩],
              [⟨1, 1, ['O'], none, 0, none, none⟩], [], 2, 2, 1⟩ : Store)
            ['A'] none ['q'] none none false).2
          ['N'] none false none none).1).methods_count = 2 :=
  (c10_reupsert_orphans
    (⟨[], [⟨1, ['A'], none, ['p'], none, none, 0⟩],
      [⟨1, 1, ['O'], none, 0, none, none⟩], [], 2, 2, 1⟩ : Store)
    (by decide) (by decide) (by decide)
    ⟨1, ['A'], none, ['p'], none, none, 0⟩ (by decide)
    none ['q'] none none false ['N'] none false none none
    _ _ rfl _ _ rfl).2.2.2.2.2.2.1


theorem matchIdentAux_word_run (w t : List Char)
    (hw : ∀ c ∈ w, isWordChar c = true) :
    matchIdentAux (w ++ t) = w ++ matchIdentAux t := by
  induction w with
  | nil => simp
  | cons c cs ih =>
    have hc : isWordChar c = true := hw c (by simp)
    simp only [List.cons_append, matchIdentAux, hc, if_true, List.append_eq]
    rw [ih (fun x hx => hw x (by simp [hx]))]

theorem matchIdentAux_stop (t : List Char)
    (ht : t = [] ∨ ∃ r, t = ' ' :: r) :
    matchIdentAux t = [] := by
  have h1 : isWordChar ' ' = false := by decide
  have h2 : (' ' : Char) ≠ '.' := by decide
  rcases ht with rfl | ⟨r, rfl⟩
  · rfl
  · simp [matchIdentAux, h1, h2]

theorem matchIdentAux_dot_word (x : Char) (xs : List Char)
    (hx : isWordChar x = true) :
    matchIdentAux ('.' :: x :: xs) = '.' :: matchIdentAux (x :: xs) := by
  have hdot : isWordChar '.' = false := by decide
  simp [matchIdentAux, hx, hdot]

theorem matchIdentAux_dotJoin (ids : List PyStr) (t : List Char)
    (hne : ids ≠ [])
    (hids : ∀ id ∈ ids, id ≠ [] ∧ ∀ c ∈ id, isWordChar c = true)
    (ht : t = [] ∨ ∃ r, t = ' ' :: r) :
    matchIdentAux (dotJoin ids ++ t) = dotJoin ids := by
  induction ids with
  | nil => exact absurd rfl hne
  | cons w rest ih =>
    obtain ⟨hwne, hw⟩ := hids w (by simp)
    cases rest with
    | nil =>
      simp only [dotJoin]
      rw [matchIdentAux_word_run w t hw, matchIdentAux_stop t ht,
        List.append_nil]
    | cons v rest2 =>
      obtain ⟨hvne, hv⟩ := hids v (by simp)
      obtain ⟨hd, tl, rfl⟩ : ∃ hd tl, v = hd :: tl := by
        cases v with
        | nil => exact absurd rfl hvne
        | cons hd tl => exact ⟨hd, tl, rfl⟩
      have hhd : isWordChar hd = true := hv hd (by simp)
      have hzshape : ∃ z, dotJoin ((hd :: tl) :: rest2) ++ t = hd :: z := by
        cases rest2 <;> simp [dotJoin]
      obtain ⟨z, hz⟩ := hzshape
      have hihyp := ih (by simp) (fun id hid => hids id (by simp [hid]))
      simp only [dotJoin, List.cons_append, List.append_assoc]
      rw [matchIdentAux_word_run w _ hw]
      rw [show dotJoin ((hd :: tl) :: rest2) ++ t = hd :: z from hz,
        matchIdentAux_dot_word hd z hhd,
        show (hd :: z : List Char) = dotJoin ((hd :: tl) :: rest2) ++ t
          from hz.symm]
      rw [hihyp]

theorem takeWhile_dropWhile_dot (xs zs : List Char)
    (hxs : ∀ x ∈ xs, (x != '.') = true) :
    (xs ++ '.' :: zs).takeWhile (fun c => c != '.') = xs ∧
    (xs ++ '.' :: zs).dropWhile (fun c => c != '.') = '.' :: zs := by
  induction xs with
  | nil => simp [List.takeWhile, List.dropWhile]
  | cons x rest ih =>
    have hx : (x != '.') = true := hxs x (by simp)
    obtain ⟨ih1, ih2⟩ := ih (fun y hy => hxs y (by simp [hy]))
    constructor
    · simp only [List.cons_append, List.takeWhile_cons, hx, if_true]
      rw [ih1]
    · simp only [List.cons_append, List.dropWhile_cons, hx, if_true]
      rw [ih2]

theorem rsplitDot_spec (a b : PyStr) (hb : ∀ c ∈ b, (c != '.') = true) :
    rsplitDot (a ++ '.' :: b) = (a, b) := by
  have hrev : (a ++ '.' :: b).reverse = b.reverse ++ '.' :: a.reverse := by
    simp
  have hb' : ∀ x ∈ b.reverse, (x != '.') = true := by
    intro x hx
    exact hb x (List.mem_reverse.mp hx)
  obtain ⟨h1, h2⟩ := takeWhile_dropWhile_dot b.reverse a.reverse hb'
  simp only [rsplitDot, hrev, h1, h2]
  simp

theorem dotJoin_append_last (ids0 : List PyStr) (lastId : PyStr)
    (h : ids0 ≠ []) :
    dotJoin (ids0 ++ [lastId]) = dotJoin ids0 ++ '.' :: lastId := by
  induction ids0 with
  | nil => exact absurd rfl h
  | cons x rest ih =>
    cases rest with
    | nil => simp [dotJoin]
    | cons y rest2 =>
      have hrec := ih (by simp)
      simp only [List.cons_append, dotJoin, List.append_eq] at hrec ⊢
      rw [hrec]
      simp

theorem word_no_dot (w : PyStr) (hw : ∀ c ∈ w, isWordChar c = true) :
    ∀ c ∈ w, (c != '.') = true := by
  intro c hc
  have hcw := hw c hc
  have hdot : isWordChar '.' = false := by decide
  by_contra hne
  simp at hne
  subst hne
  rw [hdot] at hcw
  exact absurd hcw (by simp)

theorem contains_dotJoin_two (x y : PyStr) (rest : List PyStr) :
    (dotJoin (x :: y :: rest)).contains '.' = true := by
  have hmem : '.' ∈ dotJoin (x :: y :: rest) := by simp [dotJoin]
  simpa [List.contains] using List.elem_iff.mpr hmem

theorem not_mem_dot_of_word (w : PyStr) (hw : ∀ c ∈ w, isWordChar c = true) :
    '.' ∉ w := by
  intro hmem
  have hcw := hw '.' hmem
  revert hcw
  decide

theorem parseClassTitle_grammar (ids : List PyStr) (t : PyStr)
    (hne : ids ≠ [])
    (hids : ∀ id ∈ ids, id ≠ [] ∧ ∀ c ∈ id, isWordChar c = true)
    (ht : t = [] ∨ ∃ r, t = ' ' :: r) :
    parseClassTitle (dotJoin ids ++ t) =
      if 1 < ids.length then
        (some (ids.getLast hne), some (dotJoin ids.dropLast))
      else
        (some (dotJoin ids), none) := by
  obtain ⟨w, rest, rfl⟩ : ∃ w rest, ids = w :: rest := by
    cases ids with
    | nil => exact absurd rfl hne
    | cons w rest => exact ⟨w, rest, rfl⟩
  obtain ⟨hwne, hw⟩ := hids w (by simp)
  obtain ⟨hc, tl, rfl⟩ : ∃ hc tl, w = hc :: tl := by
    cases w with
    | nil => exact absurd rfl hwne
    | cons hc tl => exact ⟨hc, tl, rfl⟩
  have hhc : isWordChar hc = true := hw hc (by simp)
  have hmatch := matchIdentAux_dotJoin ((hc :: tl) :: rest) t hne hids ht
  cases rest with
  | nil =>
    have hz : dotJoin [hc :: tl] ++ t = hc :: (tl ++ t) := by simp [dotJoin]
    rw [hz] at hmatch ⊢
    simp only [matchIdentAux, hhc, if_true] at hmatch
    simp only [parseClassTitle, hhc, if_true]
    have hfn : hc :: matchIdentAux (tl ++ t) = dotJoin [hc :: tl] := hmatch
    rw [hfn]
    have hnomem : '.' ∉ dotJoin [hc :: tl] := by
      simpa [dotJoin] using not_mem_dot_of_word _ hw
    simp [hnomem]
  | cons v rest2 =>
    have hz : ∃ z, dotJoin ((hc :: tl) :: v :: rest2) ++ t = hc :: z := by
      simp [dotJoin]
    obtain ⟨z, hzz⟩ := hz
    rw [hzz] at hmatch ⊢
    simp only [matchIdentAux, hhc, if_true] at hmatch
    simp only [parseClassTitle, hhc, if_true]
    have hfn : hc :: matchIdentAux z = dotJoin ((hc :: tl) :: v :: rest2) :=
      hmatch
    rw [hfn]
    have hdot : (dotJoin ((hc :: tl) :: v :: rest2)).contains '.' = true :=
      contains_dotJoin_two _ _ _
    simp only [hdot, if_true]
    have hids_ne : ((hc :: tl) :: v :: rest2) ≠ ([] : List PyStr) := by simp
    have hdrop_ne : ((hc :: tl) :: v :: rest2).dropLast ≠ ([] : List PyStr) := by
      intro hcontra
      have := congrArg List.length hcontra
      simp [List.length_dropLast] at this
    have hsplit : ((hc :: tl) :: v :: rest2).dropLast ++
        [((hc :: tl) :: v :: rest2).getLast hids_ne] =
        (hc :: tl) :: v :: rest2 := List.dropLast_append_getLast hids_ne
    have hjoin : dotJoin ((hc :: tl) :: v :: rest2) =
        dotJoin (((hc :: tl) :: v :: rest2).dropLast) ++
          '.' :: ((hc :: tl) :: v :: rest2).getLast hids_ne := by
      conv_lhs => rw [← hsplit]
      exact dotJoin_append_last _ _ hdrop_ne
    have hlastw : ∀ c ∈ ((hc :: tl) :: v :: rest2).getLast hids_ne,
        isWordChar c = true :=
      (hids _ (List.getLast_mem hids_ne)).2
    have hrsplit := rsplitDot_spec
      (dotJoin (((hc :: tl) :: v :: rest2).dropLast))
      (((hc :: tl) :: v :: rest2).getLast hids_ne)
      (word_no_dot _ hlastw)
    rw [hjoin, hrsplit]
    simp

/-- C7: namespace split.  Title `UnityEngine.GameObject` yields
namespace `UnityEngine` and class name `GameObject`; title `GameObject`
yields no namespace and class name `GameObject`; and in general, for a title
`Identifier(.Identifier)*` followed by nothing or by a space-led suffix
(such as " class"), the prefix before the last dot becomes the namespace and
the suffix after it the class name, a single identifier becoming the class
name with no namespace.  `parseClassTitle` returns (class_name, namespace). -/
theorem c7_namespace_split :
    parseClassTitle "UnityEngine.GameObject".toList =
      (some "GameObject".toList, some "UnityEngine".toList) ∧
    parseClassTitle "GameObject".toList = (some "GameObject".toList, none) ∧
    (∀ (ids : List PyStr) (t : PyStr) (hne : ids ≠ []),
      (∀ id ∈ ids, id ≠ [] ∧ ∀ c ∈ id, isWordChar c = true) →
      (t = [] ∨ ∃ r, t = ' ' :: r) →
      parseClassTitle (dotJoin ids ++ t) =
        if 1 < ids.length then
          (some (ids.getLast hne), some (dotJoin ids.dropLast))
        else (some (dotJoin ids), none)) := by
  refine ⟨by decide, by decide, ?_⟩
  intro ids t hne hids ht
  exact parseClassTitle_grammar ids t hne hids ht

theorem c7_witness :
    parseClassTitle (dotJoin [['A'], ['B'], ['C']] ++ " class".toList) =
      (some ['C'], some (dotJoin [['A'], ['B']])) := by
  have h := c7_namespace_split.2.2 [['A'], ['B'], ['C']] " class".toList
    (by decide) (by decide) (Or.inr ⟨"class".toList, by decide⟩)
  rw [h]
  decide

theorem sumLen_append_single (ws : List PyStr) (w : PyStr) :
    sumLen (ws ++ [w]) = sumLen ws + (w.length + 1) := by
  induction ws with
  | nil => simp [sumLen]
  | cons x rest ih =>
    simp only [sumLen, List.cons_append, List.foldr_cons] at ih ⊢
    omega

theorem joinSpace_length (ws : List PyStr) (h : ws ≠ []) :
    (joinSpace ws).length + 1 = sumLen ws := by
  induction ws with
  | nil => exact absurd rfl h
  | cons w rest ih =>
    cases rest with
    | nil => simp [joinSpace, sumLen]
    | cons v rest2 =>
      have := ih (by simp)
      simp only [joinSpace, sumLen, List.foldr_cons, List.length_append,
        List.length_cons] at this ⊢
      omega

theorem mkChunksFrom_length (md : Dict) (i : Nat) (parts : List (List PyStr)) :
    (mkChunksFrom md i parts).length = parts.length := by
  induction parts generalizing i with
  | nil => rfl
  | cons p rest ih => simp [mkChunksFrom, ih]

theorem mkChunksFrom_append_single (md : Dict) (i : Nat)
    (parts : List (List PyStr)) (p : List PyStr) :
    mkChunksFrom md i (parts ++ [p]) =
      mkChunksFrom md i parts ++
        [(joinSpace p, dictSet md chunkIndexKey (.int (i + parts.length)))] := by
  induction parts generalizing i with
  | nil => simp [mkChunksFrom]
  | cons q rest ih =>
    simp only [List.cons_append, mkChunksFrom, List.append_eq, ih,
      List.length_cons]
    have harith : i + 1 + rest.length = i + (rest.length + 1) := by omega
    rw [harith]

theorem mkChunksFrom_map_fst (md : Dict) (i : Nat)
    (parts : List (List PyStr)) :
    (mkChunksFrom md i parts).map Prod.fst = parts.map joinSpace := by
  induction parts generalizing i with
  | nil => rfl
  | cons p rest ih => simp [mkChunksFrom, ih]

theorem mem_mkChunksFrom (md : Dict) (i : Nat) (parts : List (List PyStr))
    (pr : PyStr × Dict) (h : pr ∈ mkChunksFrom md i parts) :
    ∃ p ∈ parts, pr.1 = joinSpace p := by
  induction parts generalizing i with
  | nil => simp [mkChunksFrom] at h
  | cons p rest ih =>
    simp only [mkChunksFrom, List.mem_cons] at h
    rcases h with rfl | h
    · exact ⟨p, by simp⟩
    · obtain ⟨q, hq, hpr⟩ := ih (i + 1) h
      exact ⟨q, by simp [hq], hpr⟩

theorem maxWordLen_spec (content : PyStr) :
    ∀ w ∈ pySplit content, w.length ≤ maxWordLen content := by
  unfold maxWordLen
  generalize pySplit content = l
  induction l with
  | nil => simp
  | cons x rest ih =>
    intro w hw
    simp only [List.mem_cons] at hw
    rcases hw with rfl | hw
    · simp only [List.foldr_cons]
      exact le_max_left _ _
    · simp only [List.foldr_cons]
      exact le_trans (ih w hw) (le_max_right _ _)

theorem mem_joinSpace (ws : List PyStr) (c : Char) (h : c ∈ joinSpace ws) :
    c = ' ' ∨ ∃ w ∈ ws, c ∈ w := by
  induction ws with
  | nil => simp [joinSpace] at h
  | cons w rest ih =>
    cases rest with
    | nil =>
      simp only [joinSpace] at h
      exact Or.inr ⟨w, by simp, h⟩
    | cons v rest2 =>
      simp only [joinSpace, List.mem_append, List.mem_cons] at h
      rcases h with h | h | h
      · exact Or.inr ⟨w, by simp, h⟩
      · exact Or.inl h
      · rcases ih h with h' | ⟨q, hq, hc⟩
        · exact Or.inl h'
        · exact Or.inr ⟨q, by simp [List.mem_cons] at hq ⊢; tauto, hc⟩

theorem chunk_fold_invariant (md : Dict) (cs L : Nat) (ws : List PyStr) :
    ∀ (parts : List (List PyStr)) (cur : List PyStr),
      (∀ w ∈ ws, w.length ≤ L) →
      (∀ p ∈ parts, p ≠ []) →
      (∀ p ∈ parts, sumLen p ≤ max cs (L + 1)) →
      (cur ≠ [] → sumLen cur ≤ max cs (L + 1)) →
      ∃ parts' cur',
        ws.foldl (chunkStep md cs) (mkChunksFrom md 0 parts, cur, sumLen cur) =
          (mkChunksFrom md 0 parts', cur', sumLen cur') ∧
        (∀ p ∈ parts', p ≠ []) ∧
        (∀ p ∈ parts', sumLen p ≤ max cs (L + 1)) ∧
        (cur' ≠ [] → sumLen cur' ≤ max cs (L + 1)) ∧
        parts'.flatten ++ cur' = parts.flatten ++ cur ++ ws := by
  induction ws with
  | nil =>
    intro parts cur _ hptsne hptsb hcurb
    exact ⟨parts, cur, rfl, hptsne, hptsb, hcurb, by simp⟩
  | cons w rest ih =>
    intro parts cur hws hptsne hptsb hcurb
    simp only [List.foldl_cons]
    by_cases hcond : cs < sumLen cur + (w.length + 1) ∧ cur ≠ []
    · have hstep : chunkStep md cs (mkChunksFrom md 0 parts, cur, sumLen cur) w =
          (mkChunksFrom md 0 (parts ++ [cur]), [w], sumLen [w]) := by
        simp only [chunkStep, if_pos hcond, mkChunksFrom_append_single,
          mkChunksFrom_length]
        simp [sumLen]
      rw [hstep]
      obtain ⟨parts', cur', heq, h1, h2, h3, h4⟩ :=
        ih (parts ++ [cur]) [w]
          (fun x hx => hws x (by simp [hx]))
          (by
            intro p hp
            rcases List.mem_append.mp hp with hp | hp
            · exact hptsne p hp
            · simp only [List.mem_singleton] at hp
              subst hp
              exact hcond.2)
          (by
            intro p hp
            rcases List.mem_append.mp hp with hp | hp
            · exact hptsb p hp
            · simp only [List.mem_singleton] at hp
              subst hp
              exact hcurb hcond.2)
          (by
            intro _
            have hwL : w.length ≤ L := hws w (by simp)
            simp only [sumLen, List.foldr_cons, List.foldr_nil]
            have : w.length + 1 ≤ L + 1 := by omega
            exact le_trans this (le_max_right _ _))
      refine ⟨parts', cur', heq, h1, h2, h3, ?_⟩
      rw [h4]
      simp [List.append_assoc]
    · have hne : sumLen (cur ++ [w]) = sumLen cur + (w.length + 1) :=
        sumLen_append_single cur w
      have hstep : chunkStep md cs (mkChunksFrom md 0 parts, cur, sumLen cur) w =
          (mkChunksFrom md 0 parts, cur ++ [w], sumLen (cur ++ [w])) := by
        simp only [chunkStep, if_neg hcond]
        rw [hne]
      rw [hstep]
      obtain ⟨parts', cur', heq, h1, h2, h3, h4⟩ :=
        ih parts (cur ++ [w])
          (fun x hx => hws x (by simp [hx]))
          hptsne
          hptsb
          (by
            intro _
            rw [hne]
            rcases not_and_or.mp hcond with hA | hB
            · push_neg at hA
              exact le_trans hA (le_max_left _ _)
            · push_neg at hB
              subst hB
              have hwL : w.length ≤ L := hws w (by simp)
              have : sumLen ([] : List PyStr) = 0 := rfl
              rw [this]
              have : 0 + (w.length + 1) ≤ L + 1 := by omega
              exact le_trans this (le_max_right _ _))
      refine ⟨parts', cur', heq, h1, h2, h3, ?_⟩
      rw [h4]
      simp [List.append_assoc]

theorem prepare_multi_spec (content : PyStr) (md : Dict) (cs : Nat)
    (h : cs < content.length) :
    ∃ parts, (∀ p ∈ parts, p ≠ []) ∧
      (∀ p ∈ parts, sumLen p ≤ max cs (maxWordLen content + 1)) ∧
      parts.flatten = pySplit content ∧
      prepare_for_vector_store content md cs = mkChunksFrom md 0 parts := by
  have hnotle : ¬ content.length ≤ cs := by omega
  obtain ⟨parts', cur', heq, h1, h2, h3, h4⟩ :=
    chunk_fold_invariant md cs (maxWordLen content) (pySplit content) [] []
      (maxWordLen_spec content) (by simp) (by simp) (by simp)
  have heq' : (pySplit content).foldl (chunkStep md cs) ([], [], 0) =
      (mkChunksFrom md 0 parts', cur', sumLen cur') := heq
  have h4' : parts'.flatten ++ cur' = pySplit content := by simpa using h4
  by_cases hcur : cur' = []
  · refine ⟨parts', h1, h2, ?_, ?_⟩
    · subst hcur
      simpa using h4'
    · simp only [prepare_for_vector_store, if_neg hnotle, heq']
      subst hcur
      simp
  · refine ⟨parts' ++ [cur'], ?_, ?_, ?_, ?_⟩
    · intro p hp
      rcases List.mem_append.mp hp with hp | hp
      · exact h1 p hp
      · simp only [List.mem_singleton] at hp
        subst hp
        exact hcur
    · intro p hp
      rcases List.mem_append.mp hp with hp | hp
      · exact h2 p hp
      · simp only [List.mem_singleton] at hp
        subst hp
        exact h3 hcur
    · rw [List.flatten_append]
      simpa using h4'
    · simp only [prepare_for_vector_store, if_neg hnotle, heq']
      rw [if_pos hcur]
      rw [mkChunksFrom_append_single, mkChunksFrom_length]
      simp

/-- C1 counterexample: for content `"a\nb"` (length 3 ≤ max_size 10) the
single returned chunk is the content verbatim, `a\nb`, which is not the
space-join of any run of consecutive words of the input (the words are `a`
and `b`; their joins are `a`, `b`, `a b` and the empty string). -/
theorem c1_counterexample :
    prepare_for_vector_store ['a', '\n', 'b'] [] 10 = [(['a', '\n', 'b'], [])] ∧
    (∀ i j : Nat,
      joinSpace (((pySplit ['a', '\n', 'b']).drop i).take j) ≠
        ['a', '\n', 'b']) := by
  constructor
  · decide
  · intro i j hcontra
    have hmem : '\n' ∈ joinSpace (((pySplit ['a', '\n', 'b']).drop i).take j) := by
      rw [hcontra]
      simp
    rcases mem_joinSpace _ _ hmem with hsp | ⟨w, hw, hcw⟩
    · exact absurd hsp (by decide)
    · have hw' : w ∈ pySplit ['a', '\n', 'b'] :=
        List.mem_of_mem_drop (List.mem_of_mem_take hw)
      have hps : pySplit ['a', '\n', 'b'] = [['a'], ['b']] := by decide
      rw [hps] at hw'
      simp only [List.mem_cons, List.not_mem_nil, or_false] at hw'
      rcases hw' with rfl | rfl
      · exact absurd hcw (by decide)
      · exact absurd hcw (by decide)

/-- C1 (amended): for positive `max_size`, every chunk's length is at most
`max_size + maxWordLen content`; when the content is longer than `max_size`
every chunk is the space-join of one block of a partition of the content's
word list into consecutive nonempty runs (no word is ever split); when the
content fits, the single chunk is the content itself, verbatim — whitespace
is preserved, so that chunk is in general not a space-join of words. -/
theorem c1_chunk_bounds (content : PyStr) (md : Dict) (cs : Nat)
    (hpos : 0 < cs) :
    (∀ pr ∈ prepare_for_vector_store content md cs,
      pr.1.length ≤ cs + maxWordLen content) ∧
    (cs < content.length → ∃ parts : List (List PyStr),
      parts.flatten = pySplit content ∧
      (∀ p ∈ parts, p ≠ []) ∧
      (prepare_for_vector_store content md cs).map Prod.fst =
        parts.map joinSpace) ∧
    (content.length ≤ cs →
      (prepare_for_vector_store content md cs).map Prod.fst = [content]) := by
  refine ⟨?_, ?_, ?_⟩
  · intro pr hpr
    by_cases hle : content.length ≤ cs
    · simp only [prepare_for_vector_store, if_pos hle, List.mem_singleton]
        at hpr
      subst hpr
      simp only []
      omega
    · push_neg at hle
      obtain ⟨parts, hne, hb, hflat, heq⟩ :=
        prepare_multi_spec content md cs hle
      rw [heq] at hpr
      obtain ⟨p, hp, hpr1⟩ := mem_mkChunksFrom md 0 parts pr hpr
      have hsum := hb p hp
      have hjl := joinSpace_length p (hne p hp)
      have hmax : max cs (maxWordLen content + 1) ≤
          cs + maxWordLen content + 1 :=
        max_le (by omega) (by omega)
      rw [hpr1]
      omega
  · intro hlt
    obtain ⟨parts, hne, hb, hflat, heq⟩ := prepare_multi_spec content md cs hlt
    exact ⟨parts, hflat, hne, by rw [heq, mkChunksFrom_map_fst]⟩
  · intro hle
    simp [prepare_for_vector_store, hle]

theorem c1_witness :
    0 < 2 ∧
    ((∀ pr ∈ prepare_for_vector_store "aa bb".toList [] 2,
      pr.1.length ≤ 2 + maxWordLen "aa bb".toList) ∧
    (2 < ("aa bb".toList : PyStr).length →
      ∃ parts : List (List PyStr), parts.flatten = pySplit "aa bb".toList ∧
      (∀ p ∈ parts, p ≠ []) ∧
      (prepare_for_vector_store "aa bb".toList [] 2).map Prod.fst =
        parts.map joinSpace) ∧
    (("aa bb".toList : PyStr).length ≤ 2 →
      (prepare_for_vector_store "aa bb".toList [] 2).map Prod.fst =
        ["aa bb".toList])) :=
  ⟨by decide, c1_chunk_bounds "aa bb".toList [] 2 (by decide)⟩

theorem decDigitChar_inj : ∀ d, d < 10 → ∀ e, e < 10 →
    decDigitChar d = decDigitChar e → d = e := by
  decide

theorem digits_map_decDigitChar_inj (l1 : List Nat) :
    ∀ l2 : List Nat, (∀ x ∈ l1, x < 10) → (∀ x ∈ l2, x < 10) →
      l1.map decDigitChar = l2.map decDigitChar → l1 = l2 := by
  induction l1 with
  | nil =>
    intro l2 _ _ h
    cases l2 with
    | nil => rfl
    | cons y ys => simp at h
  | cons x xs ih =>
    intro l2 h1 h2 h
    cases l2 with
    | nil => simp at h
    | cons y ys =>
      simp only [List.map_cons, List.cons.injEq] at h
      have hx := h1 x (by simp)
      have hy := h2 y (by simp)
      have hxy := decDigitChar_inj x hx y hy h.1
      have hrest := ih ys (fun a ha => h1 a (by simp [ha]))
        (fun a ha => h2 a (by simp [ha])) h.2
      rw [hxy, hrest]

theorem natRepr_inj (m n : Nat) (h : natRepr m = natRepr n) : m = n := by
  unfold natRepr at h
  by_cases hm : m = 0 <;> by_cases hn : n = 0
  · omega
  · rw [if_pos hm, if_neg hn] at h
    have h' : (Nat.digits 10 n).map decDigitChar = [decDigitChar 0] := by
      have := congrArg List.reverse h
      simpa using this.symm
    have hd : Nat.digits 10 n = [0] :=
      digits_map_decDigitChar_inj _ [0]
        (fun x hx => Nat.digits_lt_base (by norm_num) hx)
        (by simp) h'
    have := Nat.ofDigits_digits 10 n
    rw [hd] at this
    simp [Nat.ofDigits] at this
    omega
  · rw [if_neg hm, if_pos hn] at h
    have h' : (Nat.digits 10 m).map decDigitChar = [decDigitChar 0] := by
      have := congrArg List.reverse h
      simpa using this
    have hd : Nat.digits 10 m = [0] :=
      digits_map_decDigitChar_inj _ [0]
        (fun x hx => Nat.digits_lt_base (by norm_num) hx)
        (by simp) h'
    have := Nat.ofDigits_digits 10 m
    rw [hd] at this
    simp [Nat.ofDigits] at this
    omega
  · rw [if_neg hm, if_neg hn] at h
    have h' : (Nat.digits 10 m).map decDigitChar =
        (Nat.digits 10 n).map decDigitChar := by
      have := congrArg List.reverse h
      simpa using this
    have hd : Nat.digits 10 m = Nat.digits 10 n :=
      digits_map_decDigitChar_inj _ _
        (fun x hx => Nat.digits_lt_base (by norm_num) hx)
        (fun x hx => Nat.digits_lt_base (by norm_num) hx) h'
    have h1 := Nat.ofDigits_digits 10 m
    have h2 := Nat.ofDigits_digits 10 n
    rw [hd] at h1
    omega

theorem chunk_id_inj (pid : PyStr) (a b : Nat)
    (h : chunk_id pid a = chunk_id pid b) : a = b := by
  unfold chunk_id at h
  rw [List.append_assoc, List.append_assoc] at h
  have h1 := List.append_cancel_left h
  have h2 := List.append_cancel_left h1
  exact natRepr_inj a b h2

theorem chunk_ids_nodup (pid : PyStr) (chunks : List (PyStr × Dict)) :
    (chunk_ids pid chunks).Nodup := by
  unfold chunk_ids
  exact (List.nodup_range _).map
    (fun a b hab => chunk_id_inj pid a b hab)

theorem joinSpace_append (xs ys : List PyStr) (hx : xs ≠ []) (hy : ys ≠ []) :
    joinSpace (xs ++ ys) = joinSpace xs ++ ' ' :: joinSpace ys := by
  induction xs with
  | nil => exact absurd rfl hx
  | cons x rest ih =>
    cases rest with
    | nil =>
      cases ys with
      | nil => exact absurd rfl hy
      | cons y ys2 => simp [joinSpace]
    | cons x2 rest2 =>
      have ih' := ih (by simp)
      simp only [List.cons_append, joinSpace, List.append_eq] at ih' ⊢
      rw [ih']
      simp

theorem join_join (parts : List (List PyStr)) (h : ∀ p ∈ parts, p ≠ []) :
    joinSpace (parts.map joinSpace) = joinSpace parts.flatten := by
  induction parts with
  | nil => rfl
  | cons p rest ih =>
    cases rest with
    | nil => simp [joinSpace]
    | cons q rest2 =>
      have hp : p ≠ [] := h p (by simp)
      have hq : q ≠ [] := h q (by simp)
      have hflat_ne : (q :: rest2).flatten ≠ ([] : List PyStr) := by
        simp only [List.flatten_cons]
        intro hcon
        exact hq (List.append_eq_nil.mp hcon).1
      have ih' := ih (fun x hx => h x (by simp [hx]))
      calc joinSpace ((p :: q :: rest2).map joinSpace)
          = joinSpace p ++ ' ' :: joinSpace ((q :: rest2).map joinSpace) := by
            simp [joinSpace]
        _ = joinSpace p ++ ' ' :: joinSpace ((q :: rest2).flatten) := by
            rw [ih']
        _ = joinSpace (p ++ (q :: rest2).flatten) :=
            (joinSpace_append _ _ hp hflat_ne).symm
        _ = joinSpace ((p :: q :: rest2).flatten) := by
            simp [List.flatten_cons]

/-- C6 (amended): chunk identities `{page_id}_chunk_{j}` are pairwise
distinct within a page; for content longer than the chunk size (1000 as
indexed) the space-join of the chunk texts equals the space-join of the
content's words — the content is recovered only up to whitespace
normalization, not verbatim — and content that fits yields the single
verbatim chunk. -/
theorem c6_chunk_identities (page_id content : PyStr) (md : Dict)
    (chunks : List (PyStr × Dict))
    (h : chunks = prepare_for_vector_store content md 1000) :
    (chunk_ids page_id chunks).Nodup ∧
    (1000 < content.length →
      joinSpace (chunks.map Prod.fst) = joinSpace (pySplit content)) ∧
    (content.length ≤ 1000 → chunks = [(content, md)]) := by
  subst h
  refine ⟨chunk_ids_nodup _ _, ?_, ?_⟩
  · intro hlt
    obtain ⟨parts, hne, _, hflat, heq⟩ := prepare_multi_spec content md 1000 hlt
    rw [heq, mkChunksFrom_map_fst, join_join parts hne, hflat]
  · intro hle
    simp [prepare_for_vector_store, hle]

theorem c6_witness :
    (chunk_ids ['p'] (prepare_for_vector_store ['h', 'i'] [] 1000)).Nodup :=
  (c6_chunk_identities ['p'] ['h', 'i'] [] _ rfl).1

theorem pySplitAux_word (w : List Char) :
    ∀ (t cur : List Char), (∀ c ∈ w, isPySpace c = false) →
      pySplitAux (w ++ t) cur = pySplitAux t (w.reverse ++ cur) := by
  induction w with
  | nil =>
    intro t cur _
    simp
  | cons c cs ih =>
    intro t cur hw
    have hc : isPySpace c = false := hw c (by simp)
    simp only [List.cons_append, pySplitAux, hc, Bool.false_eq_true,
      if_false, List.append_eq]
    rw [ih t (c :: cur) (fun x hx => hw x (by simp [hx]))]
    simp

theorem pySplit_repl (n m : Nat) (hn : n ≠ 0) (hm : m ≠ 0) :
    pySplit (List.replicate n 'a' ++ '\n' :: List.replicate m 'b') =
      [List.replicate n 'a', List.replicate m 'b'] := by
  have ha : ∀ c ∈ List.replicate n 'a', isPySpace c = false := by
    intro c hc
    rw [List.eq_of_mem_replicate hc]
    decide
  have hb : ∀ c ∈ List.replicate m 'b', isPySpace c = false := by
    intro c hc
    rw [List.eq_of_mem_replicate hc]
    decide
  have hra_ne : (List.replicate n 'a').reverse ≠ ([] : List Char) := by
    simp [hn]
  have hrb_ne : (List.replicate m 'b').reverse ≠ ([] : List Char) := by
    simp [hm]
  unfold pySplit
  rw [pySplitAux_word _ _ _ ha, List.append_nil]
  have hstep : pySplitAux ('\n' :: List.replicate m 'b')
      (List.replicate n 'a').reverse =
      (List.replicate n 'a').reverse.reverse ::
        pySplitAux (List.replicate m 'b') [] := by
    simp only [pySplitAux]
    rw [if_pos (by decide : isPySpace '\n' = true), if_neg hra_ne]
  rw [hstep, List.reverse_reverse]
  have hlast : pySplitAux (List.replicate m 'b') [] =
      [List.replicate m 'b'] := by
    have hw := pySplitAux_word (List.replicate m 'b') [] [] hb
    simp only [List.append_nil] at hw
    rw [hw]
    simp only [pySplitAux]
    rw [if_neg hrb_ne, List.reverse_reverse]
  rw [hlast]

theorem chunks_repl (n m : Nat) (hn : n ≠ 0) (hm : m ≠ 0)
    (hbig : 1000 < n + 1 + (m + 1))
    (hlen : ¬ (List.replicate n 'a' ++
      '\n' :: List.replicate m 'b').length ≤ 1000) :
    (prepare_for_vector_store
        (List.replicate n 'a' ++ '\n' :: List.replicate m 'b') []
        1000).map Prod.fst =
      [List.replicate n 'a', List.replicate m 'b'] := by
  simp only [prepare_for_vector_store, if_neg hlen, pySplit_repl n m hn hm,
    List.foldl_cons, List.foldl_nil]
  have h1 : chunkStep [] 1000 ([], [], 0) (List.replicate n 'a') =
      ([], [List.replicate n 'a'], n + 1) := by
    have hcond : ¬ (1000 < 0 + ((List.replicate n 'a').length + 1) ∧
        ([] : List PyStr) ≠ []) := by
      simp
    simp only [chunkStep, if_neg hcond]
    simp
  have h2 : chunkStep [] 1000 ([], [List.replicate n 'a'], n + 1)
      (List.replicate m 'b') =
      ([(joinSpace [List.replicate n 'a'],
         dictSet [] chunkIndexKey (.int 0))],
       [List.replicate m 'b'], (List.replicate m 'b').length + 1) := by
    have hcond : 1000 < (n + 1) + ((List.replicate m 'b').length + 1) ∧
        ([List.replicate n 'a'] : List PyStr) ≠ [] := by
      constructor
      · simp only [List.length_replicate]
        omega
      · simp
    simp only [chunkStep, if_pos hcond]
    simp
  rw [h1, h2]
  have hne : ([List.replicate m 'b'] : List PyStr) ≠ [] := by simp
  simp only [if_pos hne]
  simp [joinSpace]

/-- C6 counterexample: a 2001-character page, 1000 `a`s, a newline, then
1000 `b`s, is chunked (at the indexed chunk size 1000) into the two chunks
`a…a` and `b…b`; neither their plain concatenation nor their space-join
recovers the page's content (the newline is lost), so the chunks do not
partition the content without gaps. -/
theorem c6_counterexample :
    ((prepare_for_vector_store
        (List.replicate 1000 'a' ++ '\n' :: List.replicate 1000 'b') []
        1000).map Prod.fst).flatten ≠
      List.replicate 1000 'a' ++ '\n' :: List.replicate 1000 'b' ∧
    joinSpace ((prepare_for_vector_store
        (List.replicate 1000 'a' ++ '\n' :: List.replicate 1000 'b') []
        1000).map Prod.fst) ≠
      List.replicate 1000 'a' ++ '\n' :: List.replicate 1000 'b' := by
  have hch := chunks_repl 1000 1000 (by omega) (by omega) (by omega)
    (by
      simp only [List.length_append, List.length_replicate, List.length_cons]
      omega)
  constructor
  · rw [hch]
    intro hcon
    have hl := congrArg List.length hcon
    simp only [List.flatten_cons, List.flatten_nil, List.length_append,
      List.length_replicate, List.length_cons, List.append_nil] at hl
    omega
  · rw [hch]
    intro hcon
    have hjs : joinSpace [List.replicate 1000 'a', List.replicate 1000 'b'] =
        List.replicate 1000 'a' ++ ' ' :: List.replicate 1000 'b' := rfl
    rw [hjs] at hcon
    have hc2 := List.append_cancel_left hcon
    simp only [List.cons.injEq] at hc2
    exact absurd hc2.1 (by decide)
